import Mathlib

/-!
Shallow embedding of the `spatial` repository (src/quad.rs): an in-memory
region quadtree storing 2-D points.  The numeric coordinate type is modelled
by the class `QTNum` (total order, addition, halving), mirroring the Rust
trait `QTNumber`; points are coordinate pairs.  The possibly non-terminating
recursive insertion is modelled with an explicit fuel parameter: `Res.gas`
means the fuel ran out (the Rust code would still be recursing), and
`Res.crash` models a `fail!`/`assert!` abort.
-/

namespace Spatial

/-- Rust trait `QTNumber`: ordered numeric type with addition and division
by two (`halve` models `self.w / two`). -/
class QTNum (N : Type) extends LinearOrder N, Add N where
  halve : N → N

instance : QTNum ℚ :=
  { inferInstanceAs (LinearOrder ℚ) with
    halve := fun q => q / 2 }

instance : QTNum ℤ :=
  { inferInstanceAs (LinearOrder ℤ) with
    halve := fun n => Int.tdiv n 2 }

/-- Rust `struct Cardinal<T>`: four same-typed slots tagged by quadrant. -/
structure Cardinal (T : Type) where
  nw : T
  ne : T
  sw : T
  se : T
  deriving DecidableEq

/-- Rust `struct AABB<N> { x, y, w }`: axis-aligned bounding square with
origin `(x, y)` and side length `w`. -/
structure AABB (N : Type) where
  x : N
  y : N
  w : N
  deriving DecidableEq

variable {N : Type}

/-- Rust `AABB::split`: `wot = w / 2`; quadrants `sw (x, y)`,
`nw (x, y+wot)`, `se (x+wot, y)`, `ne (x+wot, y+wot)`, each of side `wot`. -/
def AABB.split [QTNum N] (b : AABB N) : Cardinal (AABB N) :=
  let wot := QTNum.halve b.w
  let sw : AABB N := ⟨b.x, b.y, wot⟩
  let nw : AABB N := ⟨b.x, b.y + wot, wot⟩
  let se : AABB N := ⟨b.x + wot, b.y, wot⟩
  let ne : AABB N := ⟨b.x + wot, b.y + wot, wot⟩
  ⟨nw, ne, sw, se⟩

/-- Rust `AABB::contains`: false if `px < x`, `py < y`, `px > x + w` or
`py > y + w`; true otherwise (boundary inclusive on all four edges). -/
def AABB.contains [QTNum N] (b : AABB N) (p : N × N) : Bool :=
  if p.1 < b.x then false
  else if p.2 < b.y then false
  else if p.1 > b.x + b.w then false
  else if p.2 > b.y + b.w then false
  else true

/-- Rust `enum QuadTree<N, P>` with variants `Leaf` (bounding, contents,
cutoff) and `Node` (bounding, boxed `Cardinal` of children, cutoff); the
four children of the `Cardinal` are inlined as constructor fields. -/
inductive QuadTree (N : Type) where
  | Leaf (bounding : AABB N) (contents : List (N × N)) (cutoff : Nat)
  | Node (bounding : AABB N) (cnw cne csw cse : QuadTree N) (cutoff : Nat)
  deriving DecidableEq

/-- The bounding region carried by either variant. -/
def QuadTree.bounding : QuadTree N → AABB N
  | .Leaf b _ _ => b
  | .Node b _ _ _ _ _ => b

/-- Rust `QuadTree::contains`: both variants defer to
`bounding.contains(p)`. -/
def QuadTree.contains [QTNum N] (t : QuadTree N) (p : N × N) : Bool :=
  t.bounding.contains p

/-- Rust `QuadTree::is_full`: a `Node` is never full; a `Leaf` is full iff
`contents.len() == cutoff`. -/
def QuadTree.is_full : QuadTree N → Bool
  | .Node _ _ _ _ _ _ => false
  | .Leaf _ contents cutoff => contents.length == cutoff

/-- Rust `QuadTree::new`: split the bounding region once and build a `Node`
whose four children are empty leaves over the quadrants. -/
def QuadTree.new [QTNum N] (bounding : AABB N) (cutoff : Nat) : QuadTree N :=
  let s := bounding.split
  .Node bounding (.Leaf s.nw [] cutoff) (.Leaf s.ne [] cutoff)
    (.Leaf s.sw [] cutoff) (.Leaf s.se [] cutoff) cutoff

/-- One of the four quadrant tags. -/
inductive Quad where
  | nw
  | ne
  | sw
  | se
  deriving DecidableEq

/-- The child-selection of Rust `QuadTree::insert`:
`rep` defaults to `se`, and the first of `nw`, `ne`, `sw` whose region
contains the point is chosen instead. -/
def chooseQuad [QTNum N] (cnw cne csw _cse : QuadTree N) (p : N × N) : Quad :=
  if cnw.contains p then .nw
  else if cne.contains p then .ne
  else if csw.contains p then .sw
  else .se

/-- Read the child at a quadrant tag. -/
def getChild (cnw cne csw cse : QuadTree N) : Quad → QuadTree N
  | .nw => cnw
  | .ne => cne
  | .sw => csw
  | .se => cse

/-- Rebuild a `Node` with the child at the given tag replaced (models the
in-place `*rep = ...` / `rep.insert(...)` mutation through `&mut`). -/
def setChild (b : AABB N) (cnw cne csw cse : QuadTree N) (k : Nat) :
    Quad → QuadTree N → QuadTree N
  | .nw, c => .Node b c cne csw cse k
  | .ne, c => .Node b cnw c csw cse k
  | .sw, c => .Node b cnw cne c cse k
  | .se, c => .Node b cnw cne csw c k

/-- Outcome of one Rust `insert` call: `ok tree accepted` is a normal
return, `crash` a `fail!`/failed `assert!`, `gas` fuel exhaustion. -/
inductive Res (N : Type) where
  | ok (t : QuadTree N) (accepted : Bool)
  | crash
  | gas
  deriving DecidableEq

/-- Outcome of one Rust `breakup` call. -/
inductive BRes (N : Type) where
  | bok (t : QuadTree N)
  | bcrash
  | bgas
  deriving DecidableEq

mutual

/-- Rust `QuadTree::insert`, fuelled.  Returns `false` without mutation when
the point is outside the bounding region; appends into a `Leaf`; in a `Node`
picks a child by the fixed precedence (`chooseQuad`), re-validates
containment (`assert!` modelled by `crash`), breaks a full child up before
delegating, and returns `true`. -/
def insertF [QTNum N] : Nat → QuadTree N → N × N → Res N
  | 0, _, _ => .gas
  | fuel + 1, t, p =>
    if t.contains p = false then .ok t false
    else
      match t with
      | .Leaf b contents cutoff => .ok (.Leaf b (contents ++ [p]) cutoff) true
      | .Node b cnw cne csw cse cutoff =>
        let q := chooseQuad cnw cne csw cse p
        let rep := getChild cnw cne csw cse q
        if rep.contains p = false then .crash
        else if rep.is_full = false then
          match insertF fuel rep p with
          | .ok rep2 _ => .ok (setChild b cnw cne csw cse cutoff q rep2) true
          | .crash => .crash
          | .gas => .gas
        else
          match breakupF fuel rep with
          | .bok rep2 =>
            match insertF fuel rep2 p with
            | .ok rep3 _ => .ok (setChild b cnw cne csw cse cutoff q rep3) true
            | .crash => .crash
            | .gas => .gas
          | .bcrash => .crash
          | .bgas => .gas
  termination_by structural fuel => fuel

/-- Rust `QuadTree::breakup`, fuelled: `fail!` on a `Node`; on a `Leaf`,
split the region, build a fresh `Node` of four empty leaves and re-insert
the buffered points in original order (return values ignored). -/
def breakupF [QTNum N] : Nat → QuadTree N → BRes N
  | 0, _ => .bgas
  | fuel + 1, t =>
    match t with
    | .Node _ _ _ _ _ _ => .bcrash
    | .Leaf bounding contents cutoff =>
      let bb := bounding.split
      let node0 : QuadTree N :=
        .Node bounding (.Leaf bb.nw [] cutoff) (.Leaf bb.ne [] cutoff)
          (.Leaf bb.sw [] cutoff) (.Leaf bb.se [] cutoff) cutoff
      insertAllF fuel node0 contents
  termination_by structural fuel => fuel

/-- The `for point in contents.iter() { node.insert(point.clone()); }` loop
of `breakup`: fold the fuelled insert over the buffered points. -/
def insertAllF [QTNum N] : Nat → QuadTree N → List (N × N) → BRes N
  | _, t, [] => .bok t
  | 0, _, _ :: _ => .bgas
  | fuel + 1, t, p :: ps =>
    match insertF fuel t p with
    | .ok t2 _ => insertAllF fuel t2 ps
    | .crash => .bcrash
    | .gas => .bgas
  termination_by structural fuel => fuel

end

/-- A sequence of caller-level `insert` calls (the return value of each call
is ignored by the caller, as in the repository's test); `none` when the fuel
runs out or an internal abort happens. -/
def runInserts [QTNum N] (fuel : Nat) : QuadTree N → List (N × N) → Option (QuadTree N)
  | t, [] => some t
  | t, p :: ps =>
    match insertF fuel t p with
    | .ok t2 _ => runInserts fuel t2 ps
    | _ => none

/-- Total number of points buffered across all leaves of the tree. -/
def QuadTree.size : QuadTree N → Nat
  | .Leaf _ c _ => c.length
  | .Node _ a b c d _ => a.size + b.size + c.size + d.size

/-- Is the root of this tree an Interior (`Node`)? -/
def isNodeB : QuadTree N → Bool
  | .Leaf _ _ _ => false
  | .Node _ _ _ _ _ _ => true

/-- Capacity invariant: every leaf buffers at most its `cutoff` points. -/
def capOkB : QuadTree N → Bool
  | .Leaf _ c k => decide (c.length ≤ k)
  | .Node _ a b c d _ => capOkB a && capOkB b && capOkB c && capOkB d

/-- Containment invariant: every buffered point lies within its leaf's
bounding region. -/
def inBB [QTNum N] : QuadTree N → Bool
  | .Leaf bo c _ => c.all (fun p => bo.contains p)
  | .Node _ a b c d _ => inBB a && inBB b && inBB c && inBB d

/-- Well-formedness: the four children of every interior node are bounded by
exactly the four quadrants of the parent's split region. -/
def wfB [QTNum N] : QuadTree N → Bool
  | .Leaf _ _ _ => true
  | .Node bo a b c d _ =>
    decide (a.bounding = bo.split.nw) && decide (b.bounding = bo.split.ne) &&
      decide (c.bounding = bo.split.sw) && decide (d.bounding = bo.split.se) &&
      wfB a && wfB b && wfB c && wfB d

/-- No leaf anywhere in the tree is full. -/
def noFullB : QuadTree N → Bool
  | .Leaf _ c k => decide (c.length ≠ k)
  | .Node _ a b c d _ => noFullB a && noFullB b && noFullB c && noFullB d

/-- All structural invariants of reachable trees at once, plus the root
being an interior node. -/
def invB [QTNum N] (t : QuadTree N) : Bool :=
  capOkB t && inBB t && wfB t && isNodeB t

/-- Child access by quadrant tag (`none` on a leaf). -/
def childQ : QuadTree N → Quad → Option (QuadTree N)
  | .Leaf _ _ _, _ => none
  | .Node _ a b c d _, q => some (getChild a b c d q)

/-! ### Small unfolding and inversion lemmas -/

theorem contains_iff [QTNum N] (b : AABB N) (p : N × N) :
    b.contains p = true ↔
      b.x ≤ p.1 ∧ b.y ≤ p.2 ∧ p.1 ≤ b.x + b.w ∧ p.2 ≤ b.y + b.w := by
  unfold AABB.contains
  split_ifs with h1 h2 h3 h4 <;> simp_all [not_lt]

theorem contains_false_iff [QTNum N] (b : AABB N) (p : N × N) :
    b.contains p = false ↔
      p.1 < b.x ∨ p.2 < b.y ∨ p.1 > b.x + b.w ∨ p.2 > b.y + b.w := by
  rw [← Bool.not_eq_true, contains_iff]
  constructor
  · intro h
    by_contra hc
    push_neg at hc
    exact h hc
  · rintro (h | h | h | h) ⟨h1, h2, h3, h4⟩ <;> [exact absurd h1 (not_le.2 h);
      exact absurd h2 (not_le.2 h); exact absurd h3 (not_le.2 h);
      exact absurd h4 (not_le.2 h)]

theorem insertF_zero [QTNum N] (t : QuadTree N) (p : N × N) :
    insertF 0 t p = .gas := rfl

theorem insertF_leaf [QTNum N] (fuel : Nat) (b : AABB N) (c : List (N × N))
    (k : Nat) (p : N × N) :
    insertF (fuel + 1) (.Leaf b c k) p =
      if b.contains p = true then .ok (.Leaf b (c ++ [p]) k) true
      else .ok (.Leaf b c k) false := by
  rcases h : b.contains p with _ | _ <;>
    simp [insertF, QuadTree.contains, QuadTree.bounding, h]

theorem breakupF_zero [QTNum N] (t : QuadTree N) : breakupF 0 t = .bgas := rfl

theorem breakupF_node [QTNum N] (fuel : Nat) (b : AABB N)
    (cnw cne csw cse : QuadTree N) (k : Nat) :
    breakupF (fuel + 1) (.Node b cnw cne csw cse k) = .bcrash := rfl

theorem breakupF_leaf [QTNum N] (fuel : Nat) (bo : AABB N) (c : List (N × N))
    (k : Nat) :
    breakupF (fuel + 1) (.Leaf bo c k) =
      insertAllF fuel (.Node bo (.Leaf bo.split.nw [] k) (.Leaf bo.split.ne [] k)
        (.Leaf bo.split.sw [] k) (.Leaf bo.split.se [] k) k) c := by
  simp only [breakupF]

theorem insertAllF_nil [QTNum N] (fuel : Nat) (t : QuadTree N) :
    insertAllF fuel t [] = .bok t := by
  cases fuel <;> rfl

theorem insertAllF_cons [QTNum N] (fuel : Nat) (t : QuadTree N) (p : N × N)
    (ps : List (N × N)) :
    insertAllF (fuel + 1) t (p :: ps) =
      match insertF fuel t p with
      | .ok t2 _ => insertAllF fuel t2 ps
      | .crash => .bcrash
      | .gas => .bgas := by
  simp only [insertAllF]

theorem QuadTree.contains_node [QTNum N] (b : AABB N)
    (cnw cne csw cse : QuadTree N) (k : Nat) (p : N × N) :
    (QuadTree.Node b cnw cne csw cse k).contains p = b.contains p := rfl

theorem QuadTree.contains_leaf [QTNum N] (b : AABB N) (c : List (N × N))
    (k : Nat) (p : N × N) :
    (QuadTree.Leaf b c k).contains p = b.contains p := rfl

theorem insertF_node_notmem [QTNum N] (fuel : Nat) (b : AABB N)
    (cnw cne csw cse : QuadTree N) (k : Nat) (p : N × N)
    (h : b.contains p = false) :
    insertF (fuel + 1) (.Node b cnw cne csw cse k) p =
      .ok (.Node b cnw cne csw cse k) false := by
  simp [insertF, QuadTree.contains_node, h]

theorem insertF_node_mem [QTNum N] (fuel : Nat) (b : AABB N)
    (cnw cne csw cse : QuadTree N) (k : Nat) (p : N × N)
    (h : b.contains p = true) :
    insertF (fuel + 1) (.Node b cnw cne csw cse k) p =
      (if (getChild cnw cne csw cse (chooseQuad cnw cne csw cse p)).contains p
          = false then .crash
      else if (getChild cnw cne csw cse
          (chooseQuad cnw cne csw cse p)).is_full = false then
        match insertF fuel (getChild cnw cne csw cse
            (chooseQuad cnw cne csw cse p)) p with
        | .ok rep2 _ =>
          .ok (setChild b cnw cne csw cse k (chooseQuad cnw cne csw cse p) rep2) true
        | .crash => .crash
        | .gas => .gas
      else
        match breakupF fuel (getChild cnw cne csw cse
            (chooseQuad cnw cne csw cse p)) with
        | .bok rep2 =>
          match insertF fuel rep2 p with
          | .ok rep3 _ =>
            .ok (setChild b cnw cne csw cse k (chooseQuad cnw cne csw cse p) rep3) true
          | .crash => .crash
          | .gas => .gas
        | .bcrash => .crash
        | .bgas => .gas) := by
  simp only [insertF, QuadTree.contains_node, h, Bool.true_eq_false, if_false]

/-- Inversion: a successful insertion into an interior node either rejected
an out-of-bounds point unchanged, or accepted the point into the child
selected by the fixed precedence order (possibly after breaking it up). -/
theorem insertF_node_ok [QTNum N] {fuel : Nat} {b : AABB N}
    {cnw cne csw cse : QuadTree N} {k : Nat} {p : N × N} {t2 : QuadTree N}
    {b2 : Bool}
    (h : insertF (fuel + 1) (.Node b cnw cne csw cse k) p = .ok t2 b2) :
    (b.contains p = false ∧ t2 = .Node b cnw cne csw cse k ∧ b2 = false) ∨
    (b.contains p = true ∧ b2 = true ∧
      (getChild cnw cne csw cse (chooseQuad cnw cne csw cse p)).contains p = true ∧
      ∃ rep2,
        t2 = setChild b cnw cne csw cse k (chooseQuad cnw cne csw cse p) rep2 ∧
        (((getChild cnw cne csw cse (chooseQuad cnw cne csw cse p)).is_full = false ∧
            ∃ bb2, insertF fuel
              (getChild cnw cne csw cse (chooseQuad cnw cne csw cse p)) p
                = .ok rep2 bb2) ∨
          ((getChild cnw cne csw cse (chooseQuad cnw cne csw cse p)).is_full = true ∧
            ∃ mid bb2, breakupF fuel
                (getChild cnw cne csw cse (chooseQuad cnw cne csw cse p)) = .bok mid ∧
              insertF fuel mid p = .ok rep2 bb2))) := by
  cases hcont : AABB.contains b p with
  | false =>
    rw [insertF_node_notmem fuel b cnw cne csw cse k p hcont] at h
    cases h
    exact .inl ⟨rfl, rfl, rfl⟩
  | true =>
    rw [insertF_node_mem fuel b cnw cne csw cse k p hcont] at h
    refine .inr ⟨rfl, ?_⟩
    split at h
    · cases h
    · rename_i hrc
      rw [Bool.not_eq_false] at hrc
      split at h
      · rename_i hful
        split at h
        · rename_i rep2 bb hins
          cases h
          exact ⟨rfl, hrc, rep2, rfl, .inl ⟨hful, bb, hins⟩⟩
        · cases h
        · cases h
      · rename_i hful
        rw [Bool.not_eq_false] at hful
        split at h
        · rename_i mid hbrk
          split at h
          · rename_i rep2 bb hins
            cases h
            exact ⟨rfl, hrc, rep2, rfl, .inr ⟨hful, mid, bb, hbrk, hins⟩⟩
          · cases h
          · cases h
        · cases h
        · cases h

/-- Inversion: an aborted (`crash`) insertion into an interior node came
from a failed re-validation of the selected child, or from an abort deeper
in the recursion. -/
theorem insertF_node_crash [QTNum N] {fuel : Nat} {b : AABB N}
    {cnw cne csw cse : QuadTree N} {k : Nat} {p : N × N}
    (h : insertF (fuel + 1) (.Node b cnw cne csw cse k) p = .crash) :
    b.contains p = true ∧
      ((getChild cnw cne csw cse (chooseQuad cnw cne csw cse p)).contains p = false ∨
        (((getChild cnw cne csw cse (chooseQuad cnw cne csw cse p)).is_full = false ∧
            insertF fuel (getChild cnw cne csw cse (chooseQuad cnw cne csw cse p)) p
              = .crash) ∨
          ((getChild cnw cne csw cse (chooseQuad cnw cne csw cse p)).is_full = true ∧
            (breakupF fuel (getChild cnw cne csw cse (chooseQuad cnw cne csw cse p))
                = .bcrash ∨
              ∃ mid, breakupF fuel
                  (getChild cnw cne csw cse (chooseQuad cnw cne csw cse p)) = .bok mid ∧
                insertF fuel mid p = .crash)))) := by
  cases hcont : AABB.contains b p with
  | false =>
    rw [insertF_node_notmem fuel b cnw cne csw cse k p hcont] at h
    cases h
  | true =>
    rw [insertF_node_mem fuel b cnw cne csw cse k p hcont] at h
    refine ⟨rfl, ?_⟩
    split at h
    · rename_i hrc
      exact .inl hrc
    · rename_i hrc
      rw [Bool.not_eq_false] at hrc
      refine .inr ?_
      split at h
      · rename_i hful
        refine .inl ⟨hful, ?_⟩
        split at h
        · cases h
        · rename_i hins
          exact hins
        · cases h
      · rename_i hful
        rw [Bool.not_eq_false] at hful
        refine .inr ⟨hful, ?_⟩
        split at h
        · rename_i mid hbrk
          refine .inr ⟨mid, hbrk, ?_⟩
          split at h
          · cases h
          · rename_i hins
            exact hins
          · cases h
        · rename_i hbrk
          exact .inl hbrk
        · cases h

/-- Inversion for a successful `insertAllF` step. -/
theorem insertAllF_cons_bok [QTNum N] {fuel : Nat} {t : QuadTree N}
    {p : N × N} {ps : List (N × N)} {t2 : QuadTree N}
    (h : insertAllF (fuel + 1) t (p :: ps) = .bok t2) :
    ∃ ta bb, insertF fuel t p = .ok ta bb ∧ insertAllF fuel ta ps = .bok t2 := by
  rw [insertAllF_cons] at h
  cases hins : insertF fuel t p with
  | ok ta bb =>
    rw [hins] at h
    exact ⟨ta, bb, rfl, h⟩
  | crash => rw [hins] at h; cases h
  | gas => rw [hins] at h; cases h

/-- Inversion for an aborted `insertAllF` step. -/
theorem insertAllF_cons_bcrash [QTNum N] {fuel : Nat} {t : QuadTree N}
    {p : N × N} {ps : List (N × N)}
    (h : insertAllF (fuel + 1) t (p :: ps) = .bcrash) :
    insertF fuel t p = .crash ∨
      ∃ ta bb, insertF fuel t p = .ok ta bb ∧ insertAllF fuel ta ps = .bcrash := by
  rw [insertAllF_cons] at h
  cases hins : insertF fuel t p with
  | ok ta bb =>
    rw [hins] at h
    exact .inr ⟨ta, bb, rfl, h⟩
  | crash => exact .inl rfl
  | gas => rw [hins] at h; cases h

/-! ### Structural helper lemmas -/

theorem setChild_bounding [QTNum N] (b : AABB N) (cnw cne csw cse : QuadTree N)
    (k : Nat) (q : Quad) (c2 : QuadTree N) :
    (setChild b cnw cne csw cse k q c2).bounding = b := by
  cases q <;> rfl

theorem setChild_isNode [QTNum N] (b : AABB N) (cnw cne csw cse : QuadTree N)
    (k : Nat) (q : Quad) (c2 : QuadTree N) :
    isNodeB (setChild b cnw cne csw cse k q c2) = true := by
  cases q <;> rfl

theorem isNodeB_is_full [QTNum N] (t : QuadTree N) (h : isNodeB t = true) :
    t.is_full = false := by
  cases t with
  | Leaf b c k => cases h
  | Node b a1 a2 a3 a4 k => rfl

theorem capOkB_node [QTNum N] (bo : AABB N) (a b c d : QuadTree N) (k : Nat) :
    capOkB (.Node bo a b c d k) = true ↔
      capOkB a = true ∧ capOkB b = true ∧ capOkB c = true ∧ capOkB d = true := by
  simp [capOkB, Bool.and_eq_true, and_assoc]

theorem capOkB_leaf [QTNum N] (bo : AABB N) (c : List (N × N)) (k : Nat) :
    capOkB (.Leaf bo c k) = true ↔ c.length ≤ k := by
  simp [capOkB]

theorem capOkB_getChild [QTNum N] {bo : AABB N} {a b c d : QuadTree N} {k : Nat}
    (h : capOkB (.Node bo a b c d k) = true) (q : Quad) :
    capOkB (getChild a b c d q) = true := by
  rw [capOkB_node] at h
  cases q <;> simp [getChild] <;> tauto

theorem capOkB_setChild [QTNum N] {bo : AABB N} {a b c d : QuadTree N} {k : Nat}
    (h : capOkB (.Node bo a b c d k) = true) (q : Quad) {c2 : QuadTree N}
    (h2 : capOkB c2 = true) :
    capOkB (setChild bo a b c d k q c2) = true := by
  rw [capOkB_node] at h
  cases q <;> simp [setChild, capOkB_node] <;> tauto

theorem inBB_node [QTNum N] (bo : AABB N) (a b c d : QuadTree N) (k : Nat) :
    inBB (.Node bo a b c d k) = true ↔
      inBB a = true ∧ inBB b = true ∧ inBB c = true ∧ inBB d = true := by
  simp [inBB, Bool.and_eq_true, and_assoc]

theorem inBB_leaf [QTNum N] (bo : AABB N) (c : List (N × N)) (k : Nat) :
    inBB (.Leaf bo c k) = true ↔ ∀ p ∈ c, bo.contains p = true := by
  simp [inBB, List.all_eq_true]

theorem inBB_getChild [QTNum N] {bo : AABB N} {a b c d : QuadTree N} {k : Nat}
    (h : inBB (.Node bo a b c d k) = true) (q : Quad) :
    inBB (getChild a b c d q) = true := by
  rw [inBB_node] at h
  cases q <;> simp [getChild] <;> tauto

theorem inBB_setChild [QTNum N] {bo : AABB N} {a b c d : QuadTree N} {k : Nat}
    (h : inBB (.Node bo a b c d k) = true) (q : Quad) {c2 : QuadTree N}
    (h2 : inBB c2 = true) :
    inBB (setChild bo a b c d k q c2) = true := by
  rw [inBB_node] at h
  cases q <;> simp [setChild, inBB_node] <;> tauto

theorem wfB_node [QTNum N] (bo : AABB N) (a b c d : QuadTree N) (k : Nat) :
    wfB (.Node bo a b c d k) = true ↔
      a.bounding = bo.split.nw ∧ b.bounding = bo.split.ne ∧
        c.bounding = bo.split.sw ∧ d.bounding = bo.split.se ∧
        wfB a = true ∧ wfB b = true ∧ wfB c = true ∧ wfB d = true := by
  simp [wfB, Bool.and_eq_true, and_assoc]

theorem wfB_leaf [QTNum N] (bo : AABB N) (c : List (N × N)) (k : Nat) :
    wfB (.Leaf bo c k) = true := rfl

theorem wfB_getChild [QTNum N] {bo : AABB N} {a b c d : QuadTree N} {k : Nat}
    (h : wfB (.Node bo a b c d k) = true) (q : Quad) :
    wfB (getChild a b c d q) = true := by
  rw [wfB_node] at h
  cases q <;> simp [getChild] <;> tauto

theorem wfB_setChild [QTNum N] {bo : AABB N} {a b c d : QuadTree N} {k : Nat}
    (h : wfB (.Node bo a b c d k) = true) (q : Quad) {c2 : QuadTree N}
    (h2 : wfB c2 = true)
    (hb : c2.bounding = (getChild a b c d q).bounding) :
    wfB (setChild bo a b c d k q c2) = true := by
  rw [wfB_node] at h
  cases q <;> simp only [setChild, getChild] at * <;> rw [wfB_node] <;>
    refine ⟨?_, ?_, ?_, ?_, ?_, ?_, ?_, ?_⟩ <;> first
      | (rw [hb]; tauto)
      | tauto

theorem size_setChild [QTNum N] (bo : AABB N) (a b c d : QuadTree N) (k : Nat)
    (q : Quad) (c2 : QuadTree N) :
    (setChild bo a b c d k q c2).size + (getChild a b c d q).size =
      (QuadTree.Node bo a b c d k).size + c2.size := by
  cases q <;> simp [setChild, getChild, QuadTree.size] <;> omega

theorem noFullB_leaf [QTNum N] (bo : AABB N) (c : List (N × N)) (k : Nat) :
    noFullB (.Leaf bo c k) = true ↔ c.length ≠ k := by
  simp [noFullB]

theorem noFullB_node [QTNum N] (bo : AABB N) (a b c d : QuadTree N) (k : Nat) :
    noFullB (.Node bo a b c d k) = true ↔
      noFullB a = true ∧ noFullB b = true ∧ noFullB c = true ∧ noFullB d = true := by
  simp [noFullB, Bool.and_eq_true, and_assoc]

/-- Fundamental facts about any normal return of `insertF`, for any tree:
the boolean result is `true` exactly when the point was within the tree's
bounding region, a `false` return leaves the tree unchanged, and neither the
bounding region nor interior-ness of the root ever changes. -/
theorem insert_basic [QTNum N] :
    ∀ (fuel : Nat) (t : QuadTree N) (p : N × N) (t2 : QuadTree N) (b2 : Bool),
      insertF fuel t p = .ok t2 b2 →
      (b2 = true ↔ t.contains p = true) ∧ (b2 = false → t2 = t) ∧
        t2.bounding = t.bounding ∧ (isNodeB t = true → isNodeB t2 = true) := by
  intro fuel t p t2 b2 h
  cases fuel with
  | zero => cases h
  | succ fuel =>
    cases t with
    | Leaf b c k =>
      rw [insertF_leaf] at h
      by_cases hc : b.contains p = true
      · rw [if_pos hc] at h
        cases h
        refine ⟨by simp [QuadTree.contains_leaf, hc], by simp, rfl, by simp [isNodeB]⟩
      · rw [if_neg hc] at h
        cases h
        rw [Bool.not_eq_true] at hc
        exact ⟨by simp [QuadTree.contains_leaf, hc], fun _ => rfl, rfl, fun hh => hh⟩
    | Node b cnw cne csw cse k =>
      rcases insertF_node_ok h with ⟨hcont, ht, hb⟩ | ⟨hcont, hb2, hrc, rep2, ht2, hrest⟩
      · subst ht hb
        exact ⟨by simp [QuadTree.contains_node, hcont], fun _ => rfl, rfl, fun hh => hh⟩
      · subst ht2 hb2
        refine ⟨by simp [QuadTree.contains_node, hcont], by simp, ?_, ?_⟩
        · rw [setChild_bounding]
          rfl
        · intro _
          exact setChild_isNode b cnw cne csw cse k _ rep2

theorem is_full_true_leaf [QTNum N] (t : QuadTree N) (h : t.is_full = true) :
    ∃ bo c k, t = .Leaf bo c k ∧ c.length = k := by
  cases t with
  | Leaf bo c k =>
    refine ⟨bo, c, k, rfl, ?_⟩
    simpa [QuadTree.is_full] using h
  | Node bo a1 a2 a3 a4 k => cases h

/-- Capacity preservation: a returning insert keeps every leaf at or below
its cutoff (given the leaf directly inserted into is not already full, which
the interior-node algorithm guarantees), and a breakup always returns an
interior node all of whose leaves are at or below cutoff. -/
theorem cap_master [QTNum N] :
    ∀ fuel : Nat,
      (∀ (t : QuadTree N) p t2 b2, insertF fuel t p = .ok t2 b2 →
        capOkB t = true → t.is_full = false → capOkB t2 = true) ∧
      (∀ (bo : AABB N) c k t2, breakupF fuel (.Leaf bo c k) = .bok t2 →
        capOkB t2 = true ∧ isNodeB t2 = true) ∧
      (∀ (t : QuadTree N) ps t2, insertAllF fuel t ps = .bok t2 →
        capOkB t = true → isNodeB t = true → capOkB t2 = true ∧ isNodeB t2 = true) := by
  intro fuel
  induction fuel with
  | zero =>
    refine ⟨?_, ?_, ?_⟩
    · intro t p t2 b2 h
      cases h
    · intro bo c k t2 h
      cases h
    · intro t ps t2 h hc hn
      cases ps with
      | nil =>
        rw [insertAllF_nil] at h
        cases h
        exact ⟨hc, hn⟩
      | cons p ps => cases h
  | succ fuel ih =>
    obtain ⟨ihIns, ihBrk, ihAll⟩ := ih
    have hIns : ∀ (t : QuadTree N) p t2 b2, insertF (fuel + 1) t p = .ok t2 b2 →
        capOkB t = true → t.is_full = false → capOkB t2 = true := by
      intro t p t2 b2 h hc hg
      cases t with
      | Leaf b c k =>
        rw [insertF_leaf] at h
        by_cases hcont : b.contains p = true
        · rw [if_pos hcont] at h
          cases h
          rw [capOkB_leaf] at hc ⊢
          have hne : c.length ≠ k := by simpa [QuadTree.is_full] using hg
          simp only [List.length_append, List.length_cons, List.length_nil]
          omega
        · rw [if_neg hcont] at h
          cases h
          exact hc
      | Node b cnw cne csw cse k =>
        rcases insertF_node_ok h with ⟨hcont, ht, hb⟩ |
          ⟨hcont, hb2, hrc, rep2, ht2, hrest⟩
        · subst ht
          exact hc
        · subst ht2
          rcases hrest with ⟨hful, bb2, hins⟩ | ⟨hful, mid, bb2, hbrk, hins⟩
          · have hcrep := capOkB_getChild hc (chooseQuad cnw cne csw cse p)
            exact capOkB_setChild hc _ (ihIns _ p rep2 bb2 hins hcrep hful)
          · obtain ⟨bo2, c2, k2, hrepeq, hlen⟩ := is_full_true_leaf _ hful
            rw [hrepeq] at hbrk
            obtain ⟨hcm, hnm⟩ := ihBrk bo2 c2 k2 mid hbrk
            exact capOkB_setChild hc _
              (ihIns mid p rep2 bb2 hins hcm (isNodeB_is_full _ hnm))
    have hBrk : ∀ (bo : AABB N) c k t2, breakupF (fuel + 1) (.Leaf bo c k) = .bok t2 →
        capOkB t2 = true ∧ isNodeB t2 = true := by
      intro bo c k t2 h
      rw [breakupF_leaf] at h
      refine ihAll _ _ _ h ?_ rfl
      simp [capOkB_node, capOkB_leaf]
    have hAll : ∀ (t : QuadTree N) ps t2, insertAllF (fuel + 1) t ps = .bok t2 →
        capOkB t = true → isNodeB t = true → capOkB t2 = true ∧ isNodeB t2 = true := by
      intro t ps t2 h hc hn
      cases ps with
      | nil =>
        rw [insertAllF_nil] at h
        cases h
        exact ⟨hc, hn⟩
      | cons p ps =>
        obtain ⟨ta, bb, hins, hrest⟩ := insertAllF_cons_bok h
        have hca := ihIns t p ta bb hins hc (isNodeB_is_full t hn)
        have hna := ((insert_basic fuel t p ta bb hins).2.2.2) hn
        exact ihAll ta ps t2 hrest hca hna
    exact ⟨hIns, hBrk, hAll⟩

/-- Point-containment preservation: every operation only ever appends a
point to a leaf whose bounding region contains it. -/
theorem inB_master [QTNum N] :
    ∀ fuel : Nat,
      (∀ (t : QuadTree N) p t2 b2, insertF fuel t p = .ok t2 b2 →
        inBB t = true → inBB t2 = true) ∧
      (∀ (bo : AABB N) c k t2, breakupF fuel (.Leaf bo c k) = .bok t2 →
        inBB t2 = true) ∧
      (∀ (t : QuadTree N) ps t2, insertAllF fuel t ps = .bok t2 →
        inBB t = true → inBB t2 = true) := by
  intro fuel
  induction fuel with
  | zero =>
    refine ⟨?_, ?_, ?_⟩
    · intro t p t2 b2 h
      cases h
    · intro bo c k t2 h
      cases h
    · intro t ps t2 h hc
      cases ps with
      | nil =>
        rw [insertAllF_nil] at h
        cases h
        exact hc
      | cons p ps => cases h
  | succ fuel ih =>
    obtain ⟨ihIns, ihBrk, ihAll⟩ := ih
    have hIns : ∀ (t : QuadTree N) p t2 b2, insertF (fuel + 1) t p = .ok t2 b2 →
        inBB t = true → inBB t2 = true := by
      intro t p t2 b2 h hc
      cases t with
      | Leaf b c k =>
        rw [insertF_leaf] at h
        by_cases hcont : b.contains p = true
        · rw [if_pos hcont] at h
          cases h
          rw [inBB_leaf] at hc ⊢
          intro q hq
          rcases List.mem_append.1 hq with hq | hq
          · exact hc q hq
          · rw [List.mem_singleton.1 hq]
            exact hcont
        · rw [if_neg hcont] at h
          cases h
          exact hc
      | Node b cnw cne csw cse k =>
        rcases insertF_node_ok h with ⟨hcont, ht, hb⟩ |
          ⟨hcont, hb2, hrc, rep2, ht2, hrest⟩
        · subst ht
          exact hc
        · subst ht2
          rcases hrest with ⟨hful, bb2, hins⟩ | ⟨hful, mid, bb2, hbrk, hins⟩
          · exact inBB_setChild hc _
              (ihIns _ p rep2 bb2 hins (inBB_getChild hc _))
          · obtain ⟨bo2, c2, k2, hrepeq, hlen⟩ := is_full_true_leaf _ hful
            rw [hrepeq] at hbrk
            exact inBB_setChild hc _
              (ihIns mid p rep2 bb2 hins (ihBrk bo2 c2 k2 mid hbrk))
    have hBrk : ∀ (bo : AABB N) c k t2, breakupF (fuel + 1) (.Leaf bo c k) = .bok t2 →
        inBB t2 = true := by
      intro bo c k t2 h
      rw [breakupF_leaf] at h
      refine ihAll _ _ _ h ?_
      simp [inBB_node, inBB_leaf]
    have hAll : ∀ (t : QuadTree N) ps t2, insertAllF (fuel + 1) t ps = .bok t2 →
        inBB t = true → inBB t2 = true := by
      intro t ps t2 h hc
      cases ps with
      | nil =>
        rw [insertAllF_nil] at h
        cases h
        exact hc
      | cons p ps =>
        obtain ⟨ta, bb, hins, hrest⟩ := insertAllF_cons_bok h
        exact ihAll ta ps t2 hrest (ihIns t p ta bb hins hc)
    exact ⟨hIns, hBrk, hAll⟩

theorem ite_true_one : (if (true : Bool) = true then (1 : Nat) else 0) = 1 := rfl

/-- Size accounting: a returning insert grows the total point count by one
exactly when it returns `true`; a returning breakup preserves the count. -/
theorem size_master [QTNum N] :
    ∀ fuel : Nat,
      (∀ (t : QuadTree N) p t2 b2, insertF fuel t p = .ok t2 b2 → inBB t = true →
        t2.size = t.size + (if b2 then 1 else 0)) ∧
      (∀ (bo : AABB N) c k t2, breakupF fuel (.Leaf bo c k) = .bok t2 →
        (∀ q ∈ c, bo.contains q = true) → t2.size = c.length ∧ t2.bounding = bo) ∧
      (∀ (t : QuadTree N) ps t2, insertAllF fuel t ps = .bok t2 → inBB t = true →
        (∀ q ∈ ps, t.contains q = true) →
        t2.size = t.size + ps.length ∧ t2.bounding = t.bounding) := by
  intro fuel
  induction fuel with
  | zero =>
    refine ⟨?_, ?_, ?_⟩
    · intro t p t2 b2 h
      cases h
    · intro bo c k t2 h
      cases h
    · intro t ps t2 h hc hin
      cases ps with
      | nil =>
        rw [insertAllF_nil] at h
        cases h
        exact ⟨by simp, rfl⟩
      | cons p ps => cases h
  | succ fuel ih =>
    obtain ⟨ihIns, ihBrk, ihAll⟩ := ih
    have hIns : ∀ (t : QuadTree N) p t2 b2, insertF (fuel + 1) t p = .ok t2 b2 →
        inBB t = true → t2.size = t.size + (if b2 then 1 else 0) := by
      intro t p t2 b2 h hc
      cases t with
      | Leaf b c k =>
        rw [insertF_leaf] at h
        by_cases hcont : b.contains p = true
        · rw [if_pos hcont] at h
          cases h
          simp [QuadTree.size]
        · rw [if_neg hcont] at h
          cases h
          simp [QuadTree.size]
      | Node b cnw cne csw cse k =>
        rcases insertF_node_ok h with ⟨hcont, ht, hb⟩ |
          ⟨hcont, hb2, hrc, rep2, ht2, hrest⟩
        · subst ht hb
          simp
        · subst ht2 hb2
          have hsz := size_setChild b cnw cne csw cse k
            (chooseQuad cnw cne csw cse p) rep2
          rcases hrest with ⟨hful, bb2, hins⟩ | ⟨hful, mid, bb2, hbrk, hins⟩
          · have hbb2 : bb2 = true :=
              ((insert_basic fuel _ p rep2 bb2 hins).1).2 hrc
            subst hbb2
            have hrec := ihIns _ p rep2 true hins (inBB_getChild hc _)
            rw [ite_true_one] at hrec ⊢
            omega
          · obtain ⟨bo2, c2, k2, hrepeq, hlen⟩ := is_full_true_leaf _ hful
            have hcin : ∀ q ∈ c2, bo2.contains q = true := by
              have := inBB_getChild hc (chooseQuad cnw cne csw cse p)
              rw [hrepeq, inBB_leaf] at this
              exact this
            rw [hrepeq] at hbrk
            obtain ⟨hszmid, hbmid⟩ := ihBrk bo2 c2 k2 mid hbrk hcin
            have hmidin := (inB_master fuel).2.1 bo2 c2 k2 mid hbrk
            have hmc : mid.contains p = true := by
              rw [QuadTree.contains, hbmid]
              rw [hrepeq] at hrc
              exact hrc
            have hbb2 : bb2 = true :=
              ((insert_basic fuel mid p rep2 bb2 hins).1).2 hmc
            subst hbb2
            have hrec := ihIns mid p rep2 true hins hmidin
            have hrepsz : (getChild cnw cne csw cse
                (chooseQuad cnw cne csw cse p)).size = c2.length := by
              rw [hrepeq]
              rfl
            rw [ite_true_one] at hrec ⊢
            omega
    have hBrk : ∀ (bo : AABB N) c k t2, breakupF (fuel + 1) (.Leaf bo c k) = .bok t2 →
        (∀ q ∈ c, bo.contains q = true) → t2.size = c.length ∧ t2.bounding = bo := by
      intro bo c k t2 h hcin
      rw [breakupF_leaf] at h
      have h0 := ihAll _ _ _ h (by simp [inBB_node, inBB_leaf])
        (by
          intro q hq
          rw [QuadTree.contains]
          exact hcin q hq)
      obtain ⟨hsz, hbd⟩ := h0
      constructor
      · rw [hsz]
        simp [QuadTree.size]
      · rw [hbd]
        rfl
    have hAll : ∀ (t : QuadTree N) ps t2, insertAllF (fuel + 1) t ps = .bok t2 →
        inBB t = true → (∀ q ∈ ps, t.contains q = true) →
        t2.size = t.size + ps.length ∧ t2.bounding = t.bounding := by
      intro t ps t2 h hc hin
      cases ps with
      | nil =>
        rw [insertAllF_nil] at h
        cases h
        exact ⟨by simp, rfl⟩
      | cons p ps =>
        obtain ⟨ta, bb, hins, hrest⟩ := insertAllF_cons_bok h
        have hbasic := insert_basic fuel t p ta bb hins
        have hbb : bb = true := hbasic.1.2 (hin p (by simp))
        subst hbb
        have hsz1 := ihIns t p ta true hins hc
        have hinta := (inB_master fuel).1 t p ta true hins hc
        have hbd : ta.bounding = t.bounding := hbasic.2.2.1
        have hin2 : ∀ q ∈ ps, ta.contains q = true := by
          intro q hq
          rw [QuadTree.contains, hbd]
          exact hin q (by simp [hq])
        obtain ⟨hsz2, hbd2⟩ := ihAll ta ps t2 hrest hinta hin2
        refine ⟨?_, by rw [hbd2, hbd]⟩
        rw [hsz2, hsz1, ite_true_one]
        simp only [List.length_cons]
        omega
    exact ⟨hIns, hBrk, hAll⟩

/-! ### Quadrant geometry over the exact-halving rationals -/

theorem split_nw [QTNum N] (b : AABB N) :
    b.split.nw = ⟨b.x, b.y + QTNum.halve b.w, QTNum.halve b.w⟩ := rfl

theorem split_ne [QTNum N] (b : AABB N) :
    b.split.ne = ⟨b.x + QTNum.halve b.w, b.y + QTNum.halve b.w, QTNum.halve b.w⟩ := rfl

theorem split_sw [QTNum N] (b : AABB N) :
    b.split.sw = ⟨b.x, b.y, QTNum.halve b.w⟩ := rfl

theorem split_se [QTNum N] (b : AABB N) :
    b.split.se = ⟨b.x + QTNum.halve b.w, b.y, QTNum.halve b.w⟩ := rfl

theorem halveQ (q : ℚ) : QTNum.halve q = q / 2 := rfl

theorem halveZ (n : ℤ) : QTNum.halve n = Int.tdiv n 2 := rfl

/-- Over the rationals (exact halving), a point of the parent region that is
in none of the `nw`, `ne`, `sw` quadrants must be in the `se` quadrant, so
the default child of the selection chain always re-validates. -/
theorem split_coverage (b : AABB ℚ) (p : ℚ × ℚ) (h : b.contains p = true)
    (hnw : AABB.contains b.split.nw p = false)
    (hne : AABB.contains b.split.ne p = false)
    (hsw : AABB.contains b.split.sw p = false) :
    AABB.contains b.split.se p = true := by
  rw [contains_iff] at h
  rw [contains_false_iff] at hnw hne hsw
  rw [contains_iff]
  simp only [split_nw, split_ne, split_sw, split_se, halveQ] at hnw hne hsw ⊢
  obtain ⟨h1, h2, h3, h4⟩ := h
  have hpy : p.2 ≤ b.y + b.w / 2 := by
    by_contra hpy
    push_neg at hpy
    rcases hnw with hh | hh | hh | hh
    · linarith
    · linarith
    · rcases hne with g | g | g | g <;> linarith
    · linarith
  have hpx : b.x + b.w / 2 ≤ p.1 := by
    rcases hsw with hh | hh | hh | hh <;> linarith
  exact ⟨hpx, h2, by linarith, hpy⟩

/-- The selection chain of `insert` characterised: `nw` wins when it
contains the point, then `ne`, then `sw`, and `se` is the fallback. -/
theorem chooseQuad_spec [QTNum N] (cnw cne csw cse : QuadTree N) (p : N × N) :
    (chooseQuad cnw cne csw cse p = .nw ∧ cnw.contains p = true) ∨
    (chooseQuad cnw cne csw cse p = .ne ∧ cnw.contains p = false ∧
      cne.contains p = true) ∨
    (chooseQuad cnw cne csw cse p = .sw ∧ cnw.contains p = false ∧
      cne.contains p = false ∧ csw.contains p = true) ∨
    (chooseQuad cnw cne csw cse p = .se ∧ cnw.contains p = false ∧
      cne.contains p = false ∧ csw.contains p = false) := by
  unfold chooseQuad
  split_ifs with h1 h2 h3
  · exact .inl ⟨rfl, h1⟩
  · exact .inr (.inl ⟨rfl, by simpa using h1, h2⟩)
  · exact .inr (.inr (.inl ⟨rfl, by simpa using h1, by simpa using h2, h3⟩))
  · exact .inr (.inr (.inr ⟨rfl, by simpa using h1, by simpa using h2,
      by simpa using h3⟩))

/-- On a well-formed interior node over ℚ that contains the point, the
selected child also contains it: the `assert!` re-validation holds. -/
theorem chosen_child_contains {b : AABB ℚ} {cnw cne csw cse : QuadTree ℚ}
    {k : Nat} {p : ℚ × ℚ}
    (hwf : wfB (.Node b cnw cne csw cse k) = true)
    (hcont : b.contains p = true) :
    (getChild cnw cne csw cse (chooseQuad cnw cne csw cse p)).contains p = true := by
  obtain ⟨hbnw, hbne, hbsw, hbse, _, _, _, _⟩ := (wfB_node b cnw cne csw cse k).1 hwf
  rcases chooseQuad_spec cnw cne csw cse p with ⟨hq, hin⟩ | ⟨hq, hn1, hin⟩ |
    ⟨hq, hn1, hn2, hin⟩ | ⟨hq, hn1, hn2, hn3⟩ <;> rw [hq]
  · exact hin
  · exact hin
  · exact hin
  · rw [QuadTree.contains] at hn1 hn2 hn3 ⊢
    rw [getChild, hbse]
    rw [hbnw] at hn1
    rw [hbne] at hn2
    rw [hbsw] at hn3
    exact split_coverage b p hcont hn1 hn2 hn3

/-- Over ℚ (exact halving), well-formedness is preserved by every returning
operation, and no operation ever aborts: the internal `assert!` and the
`fail!` of `breakup` are unreachable from well-formed trees. -/
theorem wf_crash_master :
    ∀ fuel : Nat,
      (∀ (t : QuadTree ℚ) p, wfB t = true →
        insertF fuel t p ≠ .crash ∧
          ∀ t2 b2, insertF fuel t p = .ok t2 b2 → wfB t2 = true) ∧
      (∀ (bo : AABB ℚ) (c : List (ℚ × ℚ)) (k : Nat),
        breakupF fuel (.Leaf bo c k) ≠ .bcrash ∧
          ∀ t2, breakupF fuel (.Leaf bo c k) = .bok t2 →
            wfB t2 = true ∧ t2.bounding = bo ∧ isNodeB t2 = true) ∧
      (∀ (t : QuadTree ℚ) ps, wfB t = true →
        insertAllF fuel t ps ≠ .bcrash ∧
          ∀ t2, insertAllF fuel t ps = .bok t2 →
            wfB t2 = true ∧ t2.bounding = t.bounding ∧
              (isNodeB t = true → isNodeB t2 = true)) := by
  intro fuel
  induction fuel with
  | zero =>
    refine ⟨?_, ?_, ?_⟩
    · intro t p hwf
      refine ⟨?_, ?_⟩
      · intro h
        cases h
      · intro t2 b2 h
        cases h
    · intro bo c k
      refine ⟨?_, ?_⟩
      · intro h
        cases h
      · intro t2 h
        cases h
    · intro t ps hwf
      cases ps with
      | nil =>
        rw [insertAllF_nil]
        refine ⟨?_, ?_⟩
        · intro h
          cases h
        · intro t2 h
          cases h
          exact ⟨hwf, rfl, fun hh => hh⟩
      | cons p ps =>
        refine ⟨?_, ?_⟩
        · intro h
          cases h
        · intro t2 h
          cases h
  | succ fuel ih =>
    obtain ⟨ihIns, ihBrk, ihAll⟩ := ih
    have hIns : ∀ (t : QuadTree ℚ) p, wfB t = true →
        insertF (fuel + 1) t p ≠ .crash ∧
          ∀ t2 b2, insertF (fuel + 1) t p = .ok t2 b2 → wfB t2 = true := by
      intro t p hwf
      cases t with
      | Leaf b c k =>
        rw [insertF_leaf]
        by_cases hcont : b.contains p = true
        · rw [if_pos hcont]
          refine ⟨?_, ?_⟩
          · intro h
            cases h
          · intro t2 b2 h
            cases h
            exact rfl
        · rw [if_neg hcont]
          refine ⟨?_, ?_⟩
          · intro h
            cases h
          · intro t2 b2 h
            cases h
            exact hwf
      | Node b cnw cne csw cse k =>
        constructor
        · intro hcr
          obtain ⟨hcont, hrest⟩ := insertF_node_crash hcr
          rcases hrest with hrc | ⟨hful, hcr2⟩ | ⟨hful, hrest2⟩
          · rw [chosen_child_contains hwf hcont] at hrc
            cases hrc
          · exact (ihIns _ p (wfB_getChild hwf _)).1 hcr2
          · obtain ⟨bo2, c2, k2, hrepeq, hlen⟩ := is_full_true_leaf _ hful
            rcases hrest2 with hbc | ⟨mid, hbok, hcr2⟩
            · rw [hrepeq] at hbc
              exact (ihBrk bo2 c2 k2).1 hbc
            · rw [hrepeq] at hbok
              obtain ⟨hwfm, hbm, hnm⟩ := (ihBrk bo2 c2 k2).2 mid hbok
              exact (ihIns mid p hwfm).1 hcr2
        · intro t2 b2 hok
          rcases insertF_node_ok hok with ⟨hcont, ht, hb⟩ |
            ⟨hcont, hb2, hrc, rep2, ht2, hrest⟩
          · subst ht
            exact hwf
          · subst ht2
            rcases hrest with ⟨hful, bb2, hins⟩ | ⟨hful, mid, bb2, hbrk, hins⟩
            · have hwrep2 := (ihIns _ p (wfB_getChild hwf _)).2 rep2 bb2 hins
              have hbd := (insert_basic fuel _ p rep2 bb2 hins).2.2.1
              exact wfB_setChild hwf _ hwrep2 hbd
            · obtain ⟨bo2, c2, k2, hrepeq, hlen⟩ := is_full_true_leaf _ hful
              rw [hrepeq] at hbrk
              obtain ⟨hwfm, hbm, hnm⟩ := (ihBrk bo2 c2 k2).2 mid hbrk
              have hwrep2 := (ihIns mid p hwfm).2 rep2 bb2 hins
              have hbd2 := (insert_basic fuel mid p rep2 bb2 hins).2.2.1
              refine wfB_setChild hwf _ hwrep2 ?_
              rw [hbd2, hbm, hrepeq]
              rfl
    have hBrk : ∀ (bo : AABB ℚ) (c : List (ℚ × ℚ)) (k : Nat),
        breakupF (fuel + 1) (.Leaf bo c k) ≠ .bcrash ∧
          ∀ t2, breakupF (fuel + 1) (.Leaf bo c k) = .bok t2 →
            wfB t2 = true ∧ t2.bounding = bo ∧ isNodeB t2 = true := by
      intro bo c k
      rw [breakupF_leaf]
      have hwf0 : wfB (QuadTree.Node bo (.Leaf bo.split.nw [] k)
          (.Leaf bo.split.ne [] k) (.Leaf bo.split.sw [] k)
          (.Leaf bo.split.se [] k) k) = true :=
        (wfB_node bo _ _ _ _ k).2 ⟨rfl, rfl, rfl, rfl, rfl, rfl, rfl, rfl⟩
      obtain ⟨hnc, hok⟩ := ihAll _ c hwf0
      refine ⟨hnc, ?_⟩
      intro t2 h
      obtain ⟨hw2, hbd2, hnd2⟩ := hok t2 h
      exact ⟨hw2, hbd2, hnd2 rfl⟩
    have hAll : ∀ (t : QuadTree ℚ) ps, wfB t = true →
        insertAllF (fuel + 1) t ps ≠ .bcrash ∧
          ∀ t2, insertAllF (fuel + 1) t ps = .bok t2 →
            wfB t2 = true ∧ t2.bounding = t.bounding ∧
              (isNodeB t = true → isNodeB t2 = true) := by
      intro t ps hwf
      cases ps with
      | nil =>
        rw [insertAllF_nil]
        refine ⟨?_, ?_⟩
        · intro h
          cases h
        · intro t2 h
          cases h
          exact ⟨hwf, rfl, fun hh => hh⟩
      | cons p ps =>
        constructor
        · intro hcr
          rcases insertAllF_cons_bcrash hcr with hc1 | ⟨ta, bb, hins, hc2⟩
          · exact (ihIns t p hwf).1 hc1
          · have hwfa := (ihIns t p hwf).2 ta bb hins
            exact (ihAll ta ps hwfa).1 hc2
        · intro t2 h
          obtain ⟨ta, bb, hins, hrest⟩ := insertAllF_cons_bok h
          have hwfa := (ihIns t p hwf).2 ta bb hins
          have hbasic := insert_basic fuel t p ta bb hins
          obtain ⟨hw2, hbd2, hnd2⟩ := (ihAll ta ps hwfa).2 t2 hrest
          refine ⟨hw2, by rw [hbd2, hbasic.2.2.1], ?_⟩
          intro hn
          exact hnd2 (hbasic.2.2.2 hn)
    exact ⟨hIns, hBrk, hAll⟩

/-! ### Reachable trees -/

theorem invB_spec [QTNum N] (t : QuadTree N) :
    invB t = true ↔
      capOkB t = true ∧ inBB t = true ∧ wfB t = true ∧ isNodeB t = true := by
  simp [invB, Bool.and_eq_true, and_assoc]

theorem invB_new [QTNum N] (b : AABB N) (k : Nat) :
    invB (QuadTree.new b k) = true := by
  rw [invB_spec]
  refine ⟨?_, ?_, ?_, rfl⟩
  · simp [QuadTree.new, capOkB_node, capOkB_leaf]
  · simp [QuadTree.new, inBB_node, inBB_leaf]
  · exact (wfB_node _ _ _ _ _ _).2 ⟨rfl, rfl, rfl, rfl, rfl, rfl, rfl, rfl⟩

theorem runInserts_nil [QTNum N] (fuel : Nat) (t : QuadTree N) :
    runInserts fuel t [] = some t := rfl

theorem runInserts_cons [QTNum N] (fuel : Nat) (t : QuadTree N) (p : N × N)
    (ps : List (N × N)) :
    runInserts fuel t (p :: ps) =
      match insertF fuel t p with
      | .ok t2 _ => runInserts fuel t2 ps
      | _ => none := rfl

theorem runInserts_cons_some [QTNum N] {fuel : Nat} {t : QuadTree N}
    {p : N × N} {ps : List (N × N)} {t2 : QuadTree N}
    (h : runInserts fuel t (p :: ps) = some t2) :
    ∃ ta bb, insertF fuel t p = .ok ta bb ∧ runInserts fuel ta ps = some t2 := by
  rw [runInserts_cons] at h
  cases hins : insertF fuel t p with
  | ok ta bb =>
    rw [hins] at h
    exact ⟨ta, bb, rfl, h⟩
  | crash => rw [hins] at h; cases h
  | gas => rw [hins] at h; cases h

/-- All invariants of reachable trees are preserved along any sequence of
caller-level inserts (over ℚ). -/
theorem runInserts_inv :
    ∀ (ps : List (ℚ × ℚ)) (fuel : Nat) (t t2 : QuadTree ℚ),
      runInserts fuel t ps = some t2 → invB t = true → invB t2 = true := by
  intro ps
  induction ps with
  | nil =>
    intro fuel t t2 h hi
    rw [runInserts_nil] at h
    cases h
    exact hi
  | cons p ps ih =>
    intro fuel t t2 h hi
    obtain ⟨ta, bb, hins, hrest⟩ := runInserts_cons_some h
    obtain ⟨hc, hin, hw, hn⟩ := (invB_spec t).1 hi
    refine ih fuel ta t2 hrest ((invB_spec ta).2 ⟨?_, ?_, ?_, ?_⟩)
    · exact (cap_master fuel).1 t p ta bb hins hc (isNodeB_is_full t hn)
    · exact (inB_master fuel).1 t p ta bb hins hin
    · exact ((wf_crash_master fuel).1 t p hw).2 ta bb hins
    · exact (insert_basic fuel t p ta bb hins).2.2.2 hn

/-- A tree built by `new` and a completed sequence of inserts satisfies all
the structural invariants. -/
theorem reachable_inv {b : AABB ℚ} {k : Nat} {ps : List (ℚ × ℚ)} {fuel : Nat}
    {t : QuadTree ℚ} (h : runInserts fuel (QuadTree.new b k) ps = some t) :
    invB t = true :=
  runInserts_inv ps fuel _ t h (invB_new b k)

/-! ### A diverging insertion: duplicate points beyond the cutoff -/

/-- The duplicated point of the divergence scenario. -/
def pDup : ℚ × ℚ := (0, 0)

/-- The self-similar family of trees produced by inserting `(0,0)` twice
with cutoff 1: a root over `(0,0)` of side `s` whose southwest child is a
full leaf holding one copy of `(0,0)`.  Inserting `(0,0)` again breaks that
leaf up into `TChain (s/2)` and recurses forever. -/
def TChain (s : ℚ) : QuadTree ℚ :=
  .Node ⟨0, 0, s⟩ (.Leaf ⟨0, s / 2, s / 2⟩ [] 1) (.Leaf ⟨s / 2, s / 2, s / 2⟩ [] 1)
    (.Leaf ⟨0, 0, s / 2⟩ [pDup] 1) (.Leaf ⟨s / 2, 0, s / 2⟩ [] 1) 1

theorem containsA (w : ℚ) (h : 0 ≤ w) :
    AABB.contains ⟨0, 0, w⟩ pDup = true := by
  rw [contains_iff]
  refine ⟨le_refl _, le_refl _, ?_, ?_⟩ <;> simpa using h

theorem containsB (u w : ℚ) (h : 0 < u) :
    AABB.contains ⟨0, u, w⟩ pDup = false := by
  rw [contains_false_iff]
  exact .inr (.inl h)

theorem containsC (u w : ℚ) (h : 0 < u) :
    AABB.contains ⟨u, 0, w⟩ pDup = false := by
  rw [contains_false_iff]
  exact .inl h

theorem containsD (u w : ℚ) (h : 0 < u) :
    AABB.contains ⟨u, u, w⟩ pDup = false := by
  rw [contains_false_iff]
  exact .inl h

/-- With children over the four origin-quadrants, the selection chain routes
`(0,0)` to the southwest child. -/
theorem chooseT (u : ℚ) (hu : 0 < u) (l1 l2 l3 l4 : List (ℚ × ℚ))
    (k1 k2 k3 k4 : Nat) :
    chooseQuad (.Leaf ⟨0, u, u⟩ l1 k1) (.Leaf ⟨u, u, u⟩ l2 k2)
      (.Leaf ⟨0, 0, u⟩ l3 k3) (.Leaf ⟨u, 0, u⟩ l4 k4) pDup = .sw := by
  unfold chooseQuad
  rw [QuadTree.contains_leaf, QuadTree.contains_leaf, QuadTree.contains_leaf]
  rw [containsB u u hu, containsD u u hu, containsA u hu.le]
  rfl

theorem brkT (f : Nat) (u : ℚ) (hu : 0 < u) :
    breakupF (f + 1 + 1 + 1 + 1) (.Leaf ⟨0, 0, u⟩ [pDup] 1) = .bok (TChain u) := by
  rw [breakupF_leaf]
  have h2 : (0 : ℚ) < u / 2 := by positivity
  rw [show (⟨0, 0, u⟩ : AABB ℚ).split.nw = ⟨0, u / 2, u / 2⟩ by
      rw [split_nw]; simp [halveQ]]
  rw [show (⟨0, 0, u⟩ : AABB ℚ).split.ne = ⟨u / 2, u / 2, u / 2⟩ by
      rw [split_ne]; simp [halveQ]]
  rw [show (⟨0, 0, u⟩ : AABB ℚ).split.sw = ⟨0, 0, u / 2⟩ by
      rw [split_sw]; simp [halveQ]]
  rw [show (⟨0, 0, u⟩ : AABB ℚ).split.se = ⟨u / 2, 0, u / 2⟩ by
      rw [split_se]; simp [halveQ]]
  rw [insertAllF_cons]
  rw [insertF_node_mem _ _ _ _ _ _ _ _ (containsA u hu.le)]
  rw [chooseT (u / 2) h2]
  simp only [getChild]
  rw [QuadTree.contains_leaf, containsA (u / 2) h2.le]
  simp only [Bool.true_eq_false, if_false]
  rw [show (QuadTree.Leaf (⟨0, 0, u / 2⟩ : AABB ℚ) [] 1).is_full = false from rfl]
  simp only [if_pos]
  rw [insertF_leaf, if_pos (containsA (u / 2) h2.le)]
  rfl

/-- One fuel unit is too little to push the duplicated point into a fresh
quadrant node: the recursion into the southwest leaf runs out of gas. -/
theorem insNode0_gas (u : ℚ) (hu : 0 < u) :
    insertF 1 (QuadTree.Node ⟨0, 0, u⟩ (.Leaf ⟨0, u / 2, u / 2⟩ [] 1)
      (.Leaf ⟨u / 2, u / 2, u / 2⟩ [] 1) (.Leaf ⟨0, 0, u / 2⟩ [] 1)
      (.Leaf ⟨u / 2, 0, u / 2⟩ [] 1) 1) pDup = .gas := by
  have h2 : (0 : ℚ) < u / 2 := by positivity
  rw [show (1 : Nat) = 0 + 1 from rfl]
  rw [insertF_node_mem _ _ _ _ _ _ _ _ (containsA u hu.le)]
  rw [chooseT (u / 2) h2]
  simp only [getChild]
  rw [QuadTree.contains_leaf, containsA (u / 2) h2.le]
  simp only [Bool.true_eq_false, if_false]
  rw [show (QuadTree.Leaf (⟨0, 0, u / 2⟩ : AABB ℚ) [] 1).is_full = false from rfl]
  simp only [if_pos]
  rfl

/-- Three fuel units are too little to break the full southwest leaf up. -/
theorem brk3 (u : ℚ) (hu : 0 < u) :
    breakupF 3 (.Leaf ⟨0, 0, u⟩ [pDup] 1) = .bgas := by
  rw [show (3 : Nat) = 2 + 1 from rfl, breakupF_leaf]
  rw [show (2 : Nat) = 1 + 1 from rfl, insertAllF_cons]
  have h2 : (0 : ℚ) < u / 2 := by positivity
  rw [show (⟨0, 0, u⟩ : AABB ℚ).split.nw = ⟨0, u / 2, u / 2⟩ by
      rw [split_nw]; simp [halveQ]]
  rw [show (⟨0, 0, u⟩ : AABB ℚ).split.ne = ⟨u / 2, u / 2, u / 2⟩ by
      rw [split_ne]; simp [halveQ]]
  rw [show (⟨0, 0, u⟩ : AABB ℚ).split.sw = ⟨0, 0, u / 2⟩ by
      rw [split_sw]; simp [halveQ]]
  rw [show (⟨0, 0, u⟩ : AABB ℚ).split.se = ⟨u / 2, 0, u / 2⟩ by
      rw [split_se]; simp [halveQ]]
  rw [insNode0_gas u hu]

/-- Inserting the duplicated point into any member of the `TChain` family
exhausts every amount of fuel: the Rust recursion never returns. -/
theorem TChain_gas : ∀ (f : Nat) (s : ℚ), 0 < s → insertF f (TChain s) pDup = .gas := by
  intro f
  induction f with
  | zero =>
    intro s hs
    rfl
  | succ f ih =>
    intro s hs
    have h2 : (0 : ℚ) < s / 2 := by positivity
    rw [show TChain s = QuadTree.Node ⟨0, 0, s⟩ (.Leaf ⟨0, s / 2, s / 2⟩ [] 1)
        (.Leaf ⟨s / 2, s / 2, s / 2⟩ [] 1) (.Leaf ⟨0, 0, s / 2⟩ [pDup] 1)
        (.Leaf ⟨s / 2, 0, s / 2⟩ [] 1) 1 from rfl]
    rw [insertF_node_mem _ _ _ _ _ _ _ _ (containsA s hs.le)]
    rw [chooseT (s / 2) h2]
    simp only [getChild]
    rw [QuadTree.contains_leaf, containsA (s / 2) h2.le]
    simp only [Bool.true_eq_false, if_false]
    rw [show (QuadTree.Leaf (⟨0, 0, s / 2⟩ : AABB ℚ) [pDup] 1).is_full = true from rfl]
    simp only [Bool.true_eq_false, if_false]
    obtain _ | (_ | (_ | (_ | f))) := f
    · rfl
    · rfl
    · rfl
    · simp only [brk3 (s / 2) h2]
    · simp only [brkT f (s / 2) h2, ih (s / 2) h2]

theorem noFull_is_full [QTNum N] (t : QuadTree N) (h : noFullB t = true) :
    t.is_full = false := by
  cases t with
  | Leaf bo c k =>
    rw [noFullB_leaf] at h
    simp only [QuadTree.is_full]
    exact beq_eq_false_iff_ne.mpr h
  | Node bo a b c d k => rfl

theorem noFullB_getChild [QTNum N] {bo : AABB N} {a b c d : QuadTree N} {k : Nat}
    (h : noFullB (.Node bo a b c d k) = true) (q : Quad) :
    noFullB (getChild a b c d q) = true := by
  rw [noFullB_node] at h
  cases q <;> simp [getChild] <;> tauto

/-- When no leaf of a well-formed tree is full, insertion needs no breakup
and terminates (with enough fuel, one unit per level of descent). -/
theorem insert_total :
    ∀ t : QuadTree ℚ, wfB t = true → noFullB t = true →
      ∀ p, ∃ fuel t2 b2, insertF fuel t p = .ok t2 b2 := by
  intro t
  induction t with
  | Leaf bo c k =>
    intro hwf hnf p
    by_cases hc : bo.contains p = true
    · exact ⟨0 + 1, _, _, by rw [insertF_leaf, if_pos hc]⟩
    · exact ⟨0 + 1, _, _, by rw [insertF_leaf, if_neg hc]⟩
  | Node bo cnw cne csw cse k ihnw ihne ihsw ihse =>
    intro hwf hnf p
    by_cases hc : bo.contains p = true
    · have hrc := chosen_child_contains hwf hc
      have hwrep := wfB_getChild hwf (chooseQuad cnw cne csw cse p)
      have hnrep := noFullB_getChild hnf (chooseQuad cnw cne csw cse p)
      have hrep : ∃ fuel t2 b2,
          insertF fuel (getChild cnw cne csw cse (chooseQuad cnw cne csw cse p)) p
            = .ok t2 b2 := by
        cases hq : chooseQuad cnw cne csw cse p
        all_goals rw [hq] at hwrep hnrep
        all_goals simp only [getChild] at hwrep hnrep ⊢
        · exact ihnw hwrep hnrep p
        · exact ihne hwrep hnrep p
        · exact ihsw hwrep hnrep p
        · exact ihse hwrep hnrep p
      obtain ⟨fuel, t2c, b2c, hc2⟩ := hrep
      refine ⟨fuel + 1,
        setChild bo cnw cne csw cse k (chooseQuad cnw cne csw cse p) t2c, true, ?_⟩
      rw [insertF_node_mem _ _ _ _ _ _ _ _ hc]
      rw [hrc]
      simp only [Bool.true_eq_false, if_false]
      rw [noFull_is_full _ hnrep]
      simp only [if_pos]
      rw [hc2]
    · refine ⟨0 + 1, _, false,
        insertF_node_notmem 0 bo cnw cne csw cse k p ?_⟩
      rwa [Bool.not_eq_true] at hc

/-! ### Split sub-region facts (used by claim C10) -/

theorem split_subregion_rat (b : AABB ℚ) (hw : 0 ≤ b.w) (p : ℚ × ℚ)
    (h : b.split.nw.contains p = true ∨ b.split.ne.contains p = true ∨
      b.split.sw.contains p = true ∨ b.split.se.contains p = true) :
    b.contains p = true := by
  have hh : (0 : ℚ) ≤ b.w / 2 := by positivity
  have hs : b.w / 2 + b.w / 2 ≤ b.w := by linarith
  rw [contains_iff]
  rcases h with h | h | h | h <;>
    [rw [split_nw] at h; rw [split_ne] at h; rw [split_sw] at h;
      rw [split_se] at h] <;>
    rw [contains_iff] at h <;> simp only [halveQ] at h <;>
    obtain ⟨h1, h2, h3, h4⟩ := h <;>
    exact ⟨by linarith, by linarith, by linarith, by linarith⟩

theorem split_subregion_int (b : AABB ℤ) (hw : 0 ≤ b.w) (p : ℤ × ℤ)
    (h : b.split.nw.contains p = true ∨ b.split.ne.contains p = true ∨
      b.split.sw.contains p = true ∨ b.split.se.contains p = true) :
    b.contains p = true := by
  have hed : Int.tdiv b.w 2 = b.w / 2 := Int.tdiv_eq_ediv hw (by norm_num)
  have hh : (0 : ℤ) ≤ Int.tdiv b.w 2 := Int.tdiv_nonneg hw (by norm_num)
  have hs : Int.tdiv b.w 2 + Int.tdiv b.w 2 ≤ b.w := by omega
  rw [contains_iff]
  rcases h with h | h | h | h <;>
    [rw [split_nw] at h; rw [split_ne] at h; rw [split_sw] at h;
      rw [split_se] at h] <;>
    rw [contains_iff] at h <;> simp only [halveZ] at h <;>
    obtain ⟨h1, h2, h3, h4⟩ := h <;>
    exact ⟨by linarith, by linarith, by linarith, by linarith⟩

/-! ### Claim theorems -/

/-- C1: for every tree built by `QuadTree::new` and any completed sequence
of inserts, every leaf holds at most `cutoff` points (interior nodes hold no
points directly: the `Node` constructor has no contents field). -/
theorem C1_capacity_invariant (b : AABB ℚ) (k : Nat) (ps : List (ℚ × ℚ))
    (fuel : Nat) (t : QuadTree ℚ)
    (h : runInserts fuel (QuadTree.new b k) ps = some t) :
    capOkB t = true :=
  ((invB_spec t).1 (reachable_inv h)).1

/-- C2: whenever `insert` returns, it returns `true` exactly when the point
lies within the tree's overall bounding region, and a `false` return leaves
the tree completely unchanged. -/
theorem C2_insert_acceptance [QTNum N] (fuel : Nat) (t : QuadTree N)
    (p : N × N) (t2 : QuadTree N) (b2 : Bool)
    (h : insertF fuel t p = .ok t2 b2) :
    (b2 = true ↔ t.contains p = true) ∧ (b2 = false → t2 = t) :=
  ⟨(insert_basic fuel t p t2 b2 h).1, (insert_basic fuel t p t2 b2 h).2.1⟩

/-- C3: on any reachable tree, an accepted insertion (including every
breakup-triggering one) increases the total number of points buffered
across all leaves by exactly one; `breakup` itself re-inserts the buffered
points in original order and preserves the count. -/
theorem C3_insert_adds_one (b : AABB ℚ) (k : Nat) (ps : List (ℚ × ℚ))
    (fuel : Nat) (t : QuadTree ℚ)
    (h : runInserts fuel (QuadTree.new b k) ps = some t)
    (fuel2 : Nat) (p : ℚ × ℚ) (t2 : QuadTree ℚ)
    (h2 : insertF fuel2 t p = .ok t2 true) :
    t2.size = t.size + 1 := by
  have hin := ((invB_spec t).1 (reachable_inv h)).2.1
  have := (size_master fuel2).1 t p t2 true h2 hin
  rwa [ite_true_one] at this

/-- C6 (amended): over an exact-halving numeric type (ℚ), the internal
re-validation `assert!` never fails on any tree reachable from
`QuadTree::new` by inserts: `insert` never aborts. -/
theorem C6_assert_holds_rat (b : AABB ℚ) (k : Nat) (ps : List (ℚ × ℚ))
    (fuel : Nat) (t : QuadTree ℚ)
    (h : runInserts fuel (QuadTree.new b k) ps = some t)
    (fuel2 : Nat) (p : ℚ × ℚ) :
    insertF fuel2 t p ≠ .crash := by
  have hwf := ((invB_spec t).1 (reachable_inv h)).2.2.1
  exact ((wf_crash_master fuel2).1 t p hwf).1

/-- C6 (counterexample): with integer coordinates (truncating halving) the
claim fails: on the tree freshly built by `new` over the odd-sided region
`(0,0)` side `5`, inserting the in-bounds corner point `(5,5)` fails the
`assert!` — none of the four quadrants of side `5 / 2 = 2` contains it. -/
theorem C6_counterexample :
    (QuadTree.new (⟨0, 0, 5⟩ : AABB ℤ) 4).contains ((5 : ℤ), (5 : ℤ)) = true ∧
      insertF 1 (QuadTree.new (⟨0, 0, 5⟩ : AABB ℤ) 4) ((5 : ℤ), (5 : ℤ))
        = .crash := by
  constructor
  · with_unfolding_all rfl
  · with_unfolding_all rfl

/-- C7: the containment test is boundary-inclusive on all four edges: it
returns `false` exactly when the point is left of, below, right of or above
the closed square, and for a region of non-negative side the corner points
are contained while points one unit beyond an edge are not. -/
theorem C7_contains_boundary (b : AABB ℚ) (px py : ℚ) :
    (b.contains (px, py) = false ↔
      px < b.x ∨ py < b.y ∨ px > b.x + b.w ∨ py > b.y + b.w) ∧
    (0 ≤ b.w →
      b.contains (b.x, b.y) = true ∧
      b.contains (b.x + b.w, b.y + b.w) = true ∧
      b.contains (b.x + b.w + 1, py) = false ∧
      b.contains (px, b.y + b.w + 1) = false ∧
      b.contains (b.x - 1, py) = false ∧
      b.contains (px, b.y - 1) = false) := by
  refine ⟨contains_false_iff b (px, py), ?_⟩
  intro hw
  refine ⟨?_, ?_, ?_, ?_, ?_, ?_⟩
  · rw [contains_iff]
    exact ⟨le_refl _, le_refl _, by show b.x ≤ b.x + b.w; linarith,
      by show b.y ≤ b.y + b.w; linarith⟩
  · rw [contains_iff]
    exact ⟨by show b.x ≤ b.x + b.w; linarith, by show b.y ≤ b.y + b.w; linarith,
      le_refl _, le_refl _⟩
  · rw [contains_false_iff]
    exact .inr (.inr (.inl (by show b.x + b.w + 1 > b.x + b.w; linarith)))
  · rw [contains_false_iff]
    exact .inr (.inr (.inr (by show b.y + b.w + 1 > b.y + b.w; linarith)))
  · rw [contains_false_iff]
    exact .inl (by show b.x - 1 < b.x; linarith)
  · rw [contains_false_iff]
    exact .inr (.inl (by show b.y - 1 < b.y; linarith))

/-- C8 (counterexample): a zero-sided region does contain a point — its own
corner — so "a zero or negative side can never contain a point" is false. -/
theorem C8_counterexample :
    AABB.contains (⟨0, 0, 0⟩ : AABB ℚ) ((0 : ℚ), (0 : ℚ)) = true := by
  with_unfolding_all rfl

/-- C8 (amended): a region of negative side contains no point at all, and a
region of zero side contains exactly its corner point `(x, y)`. -/
theorem C8_degenerate_sides (b : AABB ℚ) (p : ℚ × ℚ) :
    (b.w < 0 → b.contains p = false) ∧
      (b.w = 0 → (b.contains p = true ↔ p.1 = b.x ∧ p.2 = b.y)) := by
  constructor
  · intro hw
    rw [contains_false_iff]
    by_cases h1 : p.1 < b.x
    · exact .inl h1
    · push_neg at h1
      exact .inr (.inr (.inl (by linarith)))
  · intro hw
    rw [contains_iff, hw]
    constructor
    · rintro ⟨h1, h2, h3, h4⟩
      constructor <;> [skip; skip] <;> linarith
    · rintro ⟨h1, h2⟩
      refine ⟨by linarith, by linarith, by linarith, by linarith⟩

/-- C10: each quadrant produced by `split` is a sub-region of its parent,
for regions of non-negative side, both over exact-halving rationals and
over truncating integers: a point contained in any split quadrant is
contained in the parent. -/
theorem C10_split_subregion :
    (∀ (b : AABB ℚ), 0 ≤ b.w → ∀ p : ℚ × ℚ,
      (b.split.nw.contains p = true ∨ b.split.ne.contains p = true ∨
        b.split.sw.contains p = true ∨ b.split.se.contains p = true) →
      b.contains p = true) ∧
    (∀ (b : AABB ℤ), 0 ≤ b.w → ∀ p : ℤ × ℤ,
      (b.split.nw.contains p = true ∨ b.split.ne.contains p = true ∨
        b.split.sw.contains p = true ∨ b.split.se.contains p = true) →
      b.contains p = true) :=
  ⟨split_subregion_rat, split_subregion_int⟩

/-- C4 (counterexample): the tree `TChain 100` is reachable from
`QuadTree::new` over region `(0,0)` side `100` with cutoff `1` by inserting
`(0,0)` once; inserting `(0,0)` a second time never returns — the
breakup/insert recursion exhausts every amount of fuel. -/
theorem C4_counterexample :
    runInserts 5 (QuadTree.new (⟨0, 0, 100⟩ : AABB ℚ) 1) [pDup] = some (TChain 100) ∧
      ¬ ∃ fuel, insertF fuel (TChain 100) pDup ≠ .gas := by
  constructor
  · with_unfolding_all rfl
  · rintro ⟨fuel, hne⟩
    exact hne (TChain_gas fuel 100 (by norm_num))

/-- C4 (amended): on a well-formed tree none of whose leaves is full,
insertion terminates (there is enough fuel for it to return normally);
construction, containment testing and splitting are total functions of the
embedding. -/
theorem C4_insert_terminates_no_full (t : QuadTree ℚ) (hwf : wfB t = true)
    (hnf : noFullB t = true) (p : ℚ × ℚ) :
    ∃ fuel t2 b2, insertF fuel t p = .ok t2 b2 :=
  insert_total t hwf hnf p

/-- C5: a returning insert into an interior node that contains the point
replaces exactly one child — the one selected by `chooseQuad` — and the
selection order is the fixed precedence northwest, northeast, southwest,
with southeast as the fallback; a point contained in several children goes
to whichever is tested first, never to more than one. -/
theorem C5_child_selection [QTNum N] (fuel : Nat) (b : AABB N)
    (cnw cne csw cse : QuadTree N) (k : Nat) (p : N × N)
    (hcont : b.contains p = true) (t2 : QuadTree N) (b2 : Bool)
    (h : insertF (fuel + 1) (.Node b cnw cne csw cse k) p = .ok t2 b2) :
    (∃ rep2, t2 = setChild b cnw cne csw cse k (chooseQuad cnw cne csw cse p) rep2) ∧
    (chooseQuad cnw cne csw cse p = .nw ↔ cnw.contains p = true) ∧
    (chooseQuad cnw cne csw cse p = .ne ↔
      cnw.contains p = false ∧ cne.contains p = true) ∧
    (chooseQuad cnw cne csw cse p = .sw ↔
      cnw.contains p = false ∧ cne.contains p = false ∧ csw.contains p = true) ∧
    (chooseQuad cnw cne csw cse p = .se ↔
      cnw.contains p = false ∧ cne.contains p = false ∧ csw.contains p = false) := by
  constructor
  · rcases insertF_node_ok h with ⟨hc, _, _⟩ | ⟨_, _, _, rep2, ht2, _⟩
    · rw [hcont] at hc
      cases hc
    · exact ⟨rep2, ht2⟩
  · rcases chooseQuad_spec cnw cne csw cse p with ⟨hq, h1⟩ | ⟨hq, h1, h2⟩ |
      ⟨hq, h1, h2, h3⟩ | ⟨hq, h1, h2, h3⟩ <;> rw [hq]
    · exact ⟨by simp [h1], by simp [h1], by simp [h1], by simp [h1]⟩
    · exact ⟨by simp [h1], by simp [h1, h2], by simp [h2], by simp [h2]⟩
    · exact ⟨by simp [h1], by simp [h2], by simp [h1, h2, h3], by simp [h3]⟩
    · exact ⟨by simp [h1], by simp [h2], by simp [h3], by simp [h1, h2, h3]⟩

/-- The four points of the §8 scenario prefix. -/
def pts4 : List (ℚ × ℚ) := [(0, 0), (1, 1), (2, 2), (3, 3)]

/-- All five points of the §8 scenario. -/
def pts5 : List (ℚ × ℚ) := [(0, 0), (1, 1), (2, 2), (3, 3), (4, 4)]

/-- The tree after inserting the first four scenario points: the root built
by `new` with all four points buffered in the southwest leaf. -/
def T4expected : QuadTree ℚ :=
  .Node ⟨0, 0, 100⟩ (.Leaf ⟨0, 50, 50⟩ [] 4) (.Leaf ⟨50, 50, 50⟩ [] 4)
    (.Leaf ⟨0, 0, 50⟩ [(0, 0), (1, 1), (2, 2), (3, 3)] 4) (.Leaf ⟨50, 0, 50⟩ [] 4) 4

/-- The tree after also inserting `(4,4)`: the southwest leaf broke up into
side-25 quadrants and the points cascaded down the southwest chain through
three further breakups (sides 25/2, 25/4, 25/8) until `(4,4)` separated
into the northeast leaf of the deepest node. -/
def T5expected : QuadTree ℚ :=
  .Node ⟨0, 0, 100⟩ (.Leaf ⟨0, 50, 50⟩ [] 4) (.Leaf ⟨50, 50, 50⟩ [] 4)
    (.Node ⟨0, 0, 50⟩ (.Leaf ⟨0, 25, 25⟩ [] 4) (.Leaf ⟨25, 25, 25⟩ [] 4)
      (.Node ⟨0, 0, 25⟩ (.Leaf ⟨0, 25 / 2, 25 / 2⟩ [] 4)
        (.Leaf ⟨25 / 2, 25 / 2, 25 / 2⟩ [] 4)
        (.Node ⟨0, 0, 25 / 2⟩ (.Leaf ⟨0, 25 / 4, 25 / 4⟩ [] 4)
          (.Leaf ⟨25 / 4, 25 / 4, 25 / 4⟩ [] 4)
          (.Node ⟨0, 0, 25 / 4⟩ (.Leaf ⟨0, 25 / 8, 25 / 8⟩ [] 4)
            (.Leaf ⟨25 / 8, 25 / 8, 25 / 8⟩ [(4, 4)] 4)
            (.Leaf ⟨0, 0, 25 / 8⟩ [(0, 0), (1, 1), (2, 2), (3, 3)] 4)
            (.Leaf ⟨25 / 8, 0, 25 / 8⟩ [] 4) 4)
          (.Leaf ⟨25 / 4, 0, 25 / 4⟩ [] 4) 4)
        (.Leaf ⟨25 / 2, 0, 25 / 2⟩ [] 4) 4)
      (.Leaf ⟨25, 0, 25⟩ [] 4) 4)
    (.Leaf ⟨50, 0, 50⟩ [] 4) 4

set_option maxRecDepth 100000 in
/-- C9 (counterexample): after the five scenario inserts, the interior node
that replaced the broken-up leaf has an *empty* northwest child
(region `(0,25)` side `25`): the five diagonal points were not routed into
the northwest-tested child — they all lie in the southwest quadrant. -/
theorem C9_counterexample :
    runInserts 30 (QuadTree.new (⟨0, 0, 100⟩ : AABB ℚ) 4) pts5 = some T5expected ∧
      (childQ T5expected .sw).bind (fun t => childQ t .nw)
        = some (.Leaf ⟨0, 25, 25⟩ [] 4) ∧
      T5expected.size = 5 := by
  refine ⟨?_, ?_, ?_⟩ <;> with_unfolding_all rfl

set_option maxRecDepth 100000 in
/-- C9 (amended): the corrected scenario: the first four points all land in
the same southwest leaf (exactly 4 points, no breakup yet) and the fifth
insert breaks that leaf into side-25 quadrants at origins `(0,0)`, `(0,25)`,
`(25,0)`, `(25,25)`, after which all five points are repeatedly routed into
the *southwest* child (the first child in precedence order that contains
them), triggering further breakups at sides `25/2`, `25/4` and `25/8`,
where `(4,4)` finally separates into the northeast leaf. -/
theorem C9_scenario :
    runInserts 30 (QuadTree.new (⟨0, 0, 100⟩ : AABB ℚ) 4) pts4 = some T4expected ∧
      runInserts 30 (QuadTree.new (⟨0, 0, 100⟩ : AABB ℚ) 4) pts5 = some T5expected := by
  constructor <;> with_unfolding_all rfl

/-! ### Witnesses: the claim theorems applied at concrete inputs -/

theorem C1_capacity_invariant_witness :
    capOkB (QuadTree.Node (⟨0, 0, 4⟩ : AABB ℚ) (.Leaf ⟨0, 2, 2⟩ [] 1)
      (.Leaf ⟨2, 2, 2⟩ [] 1) (.Leaf ⟨0, 0, 2⟩ [(1, 1)] 1)
      (.Leaf ⟨2, 0, 2⟩ [] 1) 1) = true :=
  C1_capacity_invariant ⟨0, 0, 4⟩ 1 [((1 : ℚ), (1 : ℚ))] 3 _
    (by with_unfolding_all rfl)

theorem C2_insert_acceptance_witness :
    (false = true ↔
      (QuadTree.new (⟨0, 0, 4⟩ : AABB ℚ) 1).contains ((9 : ℚ), (9 : ℚ)) = true) ∧
    (false = false →
      QuadTree.new (⟨0, 0, 4⟩ : AABB ℚ) 1 = QuadTree.new (⟨0, 0, 4⟩ : AABB ℚ) 1) :=
  C2_insert_acceptance 1 (QuadTree.new ⟨0, 0, 4⟩ 1) ((9 : ℚ), (9 : ℚ))
    (QuadTree.new ⟨0, 0, 4⟩ 1) false (by with_unfolding_all rfl)

theorem C3_insert_adds_one_witness :
    QuadTree.size (QuadTree.Node (⟨0, 0, 4⟩ : AABB ℚ) (.Leaf ⟨0, 2, 2⟩ [] 1)
      (.Leaf ⟨2, 2, 2⟩ [] 1)
      (.Node ⟨0, 0, 2⟩ (.Leaf ⟨0, 1, 1⟩ [(1, 1)] 1) (.Leaf ⟨1, 1, 1⟩ [] 1)
        (.Leaf ⟨0, 0, 1⟩ [(0, 0)] 1) (.Leaf ⟨1, 0, 1⟩ [] 1) 1)
      (.Leaf ⟨2, 0, 2⟩ [] 1) 1) =
    QuadTree.size (QuadTree.Node (⟨0, 0, 4⟩ : AABB ℚ) (.Leaf ⟨0, 2, 2⟩ [] 1)
      (.Leaf ⟨2, 2, 2⟩ [] 1) (.Leaf ⟨0, 0, 2⟩ [(0, 0)] 1)
      (.Leaf ⟨2, 0, 2⟩ [] 1) 1) + 1 :=
  C3_insert_adds_one ⟨0, 0, 4⟩ 1 [((0 : ℚ), (0 : ℚ))] 3 _
    (by with_unfolding_all rfl) 10 ((1 : ℚ), (1 : ℚ)) _
    (by with_unfolding_all rfl)

theorem C4_insert_terminates_no_full_witness :
    ∃ fuel t2 b2,
      insertF fuel (QuadTree.new (⟨0, 0, 4⟩ : AABB ℚ) 2) ((1 : ℚ), (1 : ℚ))
        = .ok t2 b2 :=
  C4_insert_terminates_no_full (QuadTree.new ⟨0, 0, 4⟩ 2)
    (by with_unfolding_all rfl) (by with_unfolding_all rfl) ((1 : ℚ), (1 : ℚ))

theorem C5_child_selection_witness :
    ∃ rep2,
      QuadTree.Node (⟨0, 0, 4⟩ : AABB ℚ) (.Leaf ⟨0, 2, 2⟩ [] 1)
        (.Leaf ⟨2, 2, 2⟩ [] 1) (.Leaf ⟨0, 0, 2⟩ [(1, 1)] 1)
        (.Leaf ⟨2, 0, 2⟩ [] 1) 1 =
      setChild ⟨0, 0, 4⟩ (.Leaf ⟨0, 2, 2⟩ [] 1) (.Leaf ⟨2, 2, 2⟩ [] 1)
        (.Leaf ⟨0, 0, 2⟩ [] 1) (.Leaf ⟨2, 0, 2⟩ [] 1) 1
        (chooseQuad (.Leaf ⟨0, 2, 2⟩ [] 1) (.Leaf ⟨2, 2, 2⟩ [] 1)
          (.Leaf ⟨0, 0, 2⟩ [] 1) (.Leaf ⟨2, 0, 2⟩ [] 1) ((1 : ℚ), (1 : ℚ)))
        rep2 :=
  (C5_child_selection 1 ⟨0, 0, 4⟩ (.Leaf ⟨0, 2, 2⟩ [] 1) (.Leaf ⟨2, 2, 2⟩ [] 1)
    (.Leaf ⟨0, 0, 2⟩ [] 1) (.Leaf ⟨2, 0, 2⟩ [] 1) 1 ((1 : ℚ), (1 : ℚ))
    (by with_unfolding_all rfl) _ true (by with_unfolding_all rfl)).1

theorem C6_assert_holds_rat_witness :
    insertF 5 (QuadTree.new (⟨0, 0, 4⟩ : AABB ℚ) 1) ((1 : ℚ), (1 : ℚ)) ≠ .crash :=
  C6_assert_holds_rat ⟨0, 0, 4⟩ 1 [] 1 (QuadTree.new ⟨0, 0, 4⟩ 1)
    (by with_unfolding_all rfl) 5 ((1 : ℚ), (1 : ℚ))

theorem C7_contains_boundary_witness :
    AABB.contains (⟨0, 0, 2⟩ : AABB ℚ) ((0 : ℚ), (0 : ℚ)) = true :=
  ((C7_contains_boundary ⟨0, 0, 2⟩ 1 1).2 (by norm_num)).1

theorem C8_degenerate_sides_witness :
    AABB.contains (⟨0, 0, -1⟩ : AABB ℚ) ((0 : ℚ), (0 : ℚ)) = false :=
  (C8_degenerate_sides ⟨0, 0, -1⟩ ((0 : ℚ), (0 : ℚ))).1 (by norm_num)

theorem C10_split_subregion_witness :
    AABB.contains (⟨0, 0, 4⟩ : AABB ℚ) ((1 : ℚ), (1 : ℚ)) = true :=
  C10_split_subregion.1 ⟨0, 0, 4⟩ (by norm_num) ((1 : ℚ), (1 : ℚ))
    (.inr (.inr (.inl (by with_unfolding_all rfl))))

end Spatial
